import Mathlib

set_option maxHeartbeats 1000000

/-!
# Verification of the three command-line utilities

A shallow embedding, in Lean 4, of the three Python utilities of this
repository: `computeStatistics.py`, `convertNumbers.py` and `wordCount.py`.
Python floats are modelled as exact rationals (`ℚ`); on every concrete sample
appearing below the float computation is exact, so the models agree with the
programs there.  Python's arbitrary-precision integers are modelled as `ℤ`;
for a positive divisor Python's `//` is floor division (`Int.fdiv`) and
Python's `%` and bitwise `& (2^k - 1)` agree with Lean's `%` on `ℤ`
(Euclidean, non-negative remainder for a positive modulus).

Effectful entry points (`main`) are modelled as pure functions of the
command-line argument vector and of the (optional) input-file contents; the
host language's numeric parsers (`float`, `int`) are taken as parameters.
`sys.exit(1)` before any write is modelled by the `RunOutcome.fatal 1`
constructor, reaching `save_results` by `RunOutcome.saved`.
-/

namespace A42

/-! ## computeStatistics.py -/

/-- `mean` (computeStatistics.py lines 47-53): accumulate a running total
over the values and divide by the length. -/
def mean (values : List ℚ) : ℚ :=
  (values.foldl (fun total value => total + value) 0) / (values.length : ℚ)

/-- `median` (computeStatistics.py lines 56-68): sort ascending; odd count
takes the middle element, even count averages the two central elements.
Python's list indexing is modelled by `getD` (the default is never reached on
a non-empty input, where the indices are in range). -/
def median (values : List ℚ) : ℚ :=
  let sorted_values := List.insertionSort (fun a b => a ≤ b) values
  let n := sorted_values.length
  let middle := n / 2
  if n % 2 = 1 then sorted_values.getD middle 0
  else (sorted_values.getD (middle - 1) 0 + sorted_values.getD middle 0) / 2

/-- One step of `frequency[value] = frequency.get(value, 0) + 1` on an
insertion-ordered association list (Python dicts preserve insertion order:
an existing key keeps its position, a new key is appended). -/
def updateFreq {α : Type} [DecidableEq α] : List (α × ℕ) → α → List (α × ℕ)
  | [], v => [(v, 1)]
  | (k, c) :: rest, v =>
      if k = v then (k, c + 1) :: rest else (k, c) :: updateFreq rest v

/-- The frequency dictionary built by the loops of `mode`
(computeStatistics.py lines 73-75) and of `count_frequencies`
(wordCount.py lines 61-66). -/
def count_frequencies {α : Type} [DecidableEq α] (words : List α) :
    List (α × ℕ) :=
  words.foldl updateFreq []

/-- `max(frequency.values())` (computeStatistics.py line 77): maximum of the
counts of a non-empty dictionary (`0` on the empty dictionary, which `mode`
never builds from a non-empty input). -/
def maxCountOf (frequency : List (ℚ × ℕ)) : ℕ :=
  match frequency with
  | [] => 0
  | p :: rest => rest.foldl (fun m q => max m q.2) p.2

/-- The body of the selection loop of `mode` (computeStatistics.py lines
84-88): `if count == max_count: if best is None or val > best: best = val`. -/
def modeStep (max_count : ℕ) (best : Option ℚ) (p : ℚ × ℕ) : Option ℚ :=
  if p.2 = max_count then
    match best with
    | none => some p.1
    | some b => if p.1 > b then some p.1 else some b
  else best

/-- The selection loop of `mode` over the dictionary items, in insertion
order, starting from `best = None`. -/
def modeBest (max_count : ℕ) (frequency : List (ℚ × ℕ)) : Option ℚ :=
  frequency.foldl (modeStep max_count) none

/-- `mode` (computeStatistics.py lines 71-90): build the frequency
dictionary; if every value appears once there is no mode; otherwise pick,
among the values attaining the maximal count, the largest. -/
def mode (values : List ℚ) : Option ℚ :=
  let frequency := count_frequencies values
  let max_count := maxCountOf frequency
  if max_count = 1 then none
  else modeBest max_count frequency

/-- `variance` (computeStatistics.py lines 94-106): total the squared
deviations from the given `avg`, then return `0.0` when fewer than two
values, else divide by `n - 1` (sample variance). -/
def variance (values : List ℚ) (avg : ℚ) : ℚ :=
  let total := values.foldl (fun total value => total + (value - avg) * (value - avg)) 0
  let n := values.length
  if n < 2 then 0 else total / ((n : ℚ) - 1)

/-- The value interpolated after the label `Variance:` in the report built
by `main` (computeStatistics.py line 166): the variable `var` of line 148,
i.e. the sample variance at the computed mean. -/
def printedVariance (numbers : List ℚ) : ℚ :=
  variance numbers (mean numbers)

/-- `var_population` (computeStatistics.py line 149): the sample variance
rescaled by `(n - 1) / n`. -/
def var_population (numbers : List ℚ) : ℚ :=
  printedVariance numbers * ((numbers.length : ℚ) - 1) / (numbers.length : ℚ)

/-- The value interpolated after the label `Standard deviation:` in the
report (computeStatistics.py lines 150 and 167): `var_population ** 0.5`,
the square root of the population variance. -/
noncomputable def printedStd (numbers : List ℚ) : ℝ :=
  Real.sqrt ((var_population numbers : ℚ) : ℝ)

/-- `read_numbers` (computeStatistics.py lines 16-44), given the lines of an
existing file: strip each line; an empty result is recorded as an error and
skipped; otherwise the host float parser (parameter `parseNum`, total
functions standing for Python's `float`) either yields a number, kept in
order, or fails, recording an error.  Returns the numbers and the number of
recorded errors. -/
def read_numbers (parseNum : String → Option ℚ) (lines : List String) :
    List ℚ × ℕ :=
  lines.foldl
    (fun acc line =>
      let text := line.trim
      if text = "" then (acc.1, acc.2 + 1)
      else
        match parseNum text with
        | some x => (acc.1 ++ [x], acc.2)
        | none => (acc.1, acc.2 + 1))
    ([], 0)

/-- Outcome of one run of a utility: `fatal code` models `sys.exit(code)`
before `save_results` is reached (no output file is written), while
`saved r` models a run that reaches the final `print` / `save_results`
with report payload `r`. -/
inductive RunOutcome (ρ : Type) where
  | fatal (exitCode : ℕ)
  | saved (report : ρ)
  deriving DecidableEq

/-- `main` of computeStatistics.py (lines 123-172) as a function of the
full argument vector (`sys.argv`, script name included) and of the optional
file contents (`none` models `FileNotFoundError`, which `read_numbers`
turns into `sys.exit(1)`).  The saved payload carries the computed numbers
interpolated into the report. -/
def statsMain (parseNum : String → Option ℚ) (argv : List String)
    (file : Option (List String)) : RunOutcome (ℚ × ℚ × Option ℚ × ℚ) :=
  if argv.length ≠ 2 then .fatal 1
  else
    match file with
    | none => .fatal 1
    | some lines =>
        let numbers := (read_numbers parseNum lines).1
        if numbers.length = 0 then .fatal 1
        else .saved (mean numbers, median numbers, mode numbers,
          variance numbers (mean numbers))

/-! ## convertNumbers.py -/

/-- `HEX_DIGITS` (convertNumbers.py line 15). -/
def HEX_DIGITS : List Char :=
  ['0', '1', '2', '3', '4', '5', '6', '7', '8', '9', 'A', 'B', 'C', 'D', 'E', 'F']

/-- Python's `HEX_DIGITS[n]` (indices used are always in range). -/
def hexDigitAt (n : ℕ) : Char := HEX_DIGITS.getD n ' '

/-- The positive loop of `to_binary` (convertNumbers.py lines 54-60):
append `n % 2` digits while halving, then reverse; rendered here directly
in most-significant-first order. -/
def binDigitsPos (n : ℕ) : List Char :=
  if h : n = 0 then []
  else binDigitsPos (n / 2) ++ [if n % 2 = 1 then '1' else '0']
termination_by n
decreasing_by exact Nat.div_lt_self (Nat.pos_of_ne_zero h) (by decide)

/-- The positive loop of `to_hex` (convertNumbers.py lines 78-84). -/
def hexDigitsPos (n : ℕ) : List Char :=
  if h : n = 0 then []
  else hexDigitsPos (n / 16) ++ [hexDigitAt (n % 16)]
termination_by n
decreasing_by exact Nat.div_lt_self (Nat.pos_of_ne_zero h) (by decide)

/-- `to_binary` (convertNumbers.py lines 48-69).  Non-negative values:
`"0"` for zero, else minimal binary.  Negative values: `width = 10`,
`unsigned = (1 <<< 10) + value`, and for `i = 9, ..., 0` the bit
`(unsigned >> i) & 1`; Python's `>>` on a (possibly negative) int is floor
division by `2 ^ i` and `& 1` is the non-negative remainder mod 2. -/
def to_binary (value : ℤ) : List Char :=
  if 0 ≤ value then
    if value = 0 then ['0'] else binDigitsPos value.toNat
  else
    (List.range 10).reverse.map
      (fun i => if (Int.fdiv (2 ^ 10 + value) (2 ^ i)) % 2 = 1 then '1' else '0')

/-- `to_hex` (convertNumbers.py lines 72-94).  Non-negative values: `"0"`
for zero, else minimal uppercase hex.  Negative values: `width_bits = 40`,
`unsigned = (1 <<< 40) + value`, and for `shift = 36, 32, ..., 0` the nibble
`(unsigned >> shift) & 0xF` rendered through `HEX_DIGITS`. -/
def to_hex (value : ℤ) : List Char :=
  if 0 ≤ value then
    if value = 0 then ['0'] else hexDigitsPos value.toNat
  else
    (List.range 10).reverse.map
      (fun j => hexDigitAt ((Int.fdiv (2 ^ 40 + value) (2 ^ (4 * j)) % 16).toNat))

/-- `read_items` (convertNumbers.py lines 18-45), given the lines of an
existing file: every line contributes an item `(strippedText, parsedValue)`
in order; empty lines and integer-parse failures (host parser `parseInt`,
standing for Python's `int`) yield `none` values and are recorded as
errors. -/
def read_items (parseInt : String → Option ℤ) (lines : List String) :
    List (String × Option ℤ) × ℕ :=
  lines.foldl
    (fun acc line =>
      let text := line.trim
      if text = "" then (acc.1 ++ [(text, none)], acc.2 + 1)
      else
        match parseInt text with
        | some n => (acc.1 ++ [(text, some n)], acc.2)
        | none => (acc.1 ++ [(text, none)], acc.2 + 1))
    ([], 0)

/-- The per-item body rows of `build_results_text` (convertNumbers.py lines
116-122): an unparsed item degrades to sentinel cells, a parsed one shows
its binary and hex renderings. -/
def resultRows (items : List (String × Option ℤ)) : List (List Char) :=
  items.map
    (fun item =>
      match item.2 with
      | none => item.1.toList ++ (" | #VALUE! | #VALUE!".toList)
      | some v => (toString v).toList ++ (" | ".toList) ++ to_binary v
          ++ (" | ".toList) ++ to_hex v)

/-- `main` of convertNumbers.py (lines 130-153) as a function of the
argument vector and the optional file contents; `all(value is None ...)`
aborts the run before any write. -/
def convertMain (parseInt : String → Option ℤ) (argv : List String)
    (file : Option (List String)) : RunOutcome (List (List Char)) :=
  if argv.length ≠ 2 then .fatal 1
  else
    match file with
    | none => .fatal 1
    | some lines =>
        let items := (read_items parseInt lines).1
        if items.all (fun p => p.2.isNone) then .fatal 1
        else .saved (resultRows items)

/-! ## wordCount.py -/

/-- `normalize_token` (wordCount.py lines 19-26): keep only alphanumeric
characters, lowercased.  Python's Unicode-aware `isalnum`/`lower` are
modelled on their ASCII fragment (`Char.isAlphanum` / `Char.toLower`),
which is exact on every ASCII input. -/
def normalize_token (token : List Char) : List Char :=
  (token.filter Char.isAlphanum).map Char.toLower

/-- Python's `str.split(" ")`: split on every single occurrence of the
separator character; `k` consecutive separators yield `k - 1` empty tokens
in between, and the result is never empty. -/
def splitOnChar (c : Char) : List Char → List (List Char)
  | [] => [[]]
  | x :: xs =>
      if x = c then [] :: splitOnChar c xs
      else (splitOnChar c xs).modifyHead (fun part => x :: part)

/-- The per-part body of the loop of `read_words` (wordCount.py lines
47-52): a token normalizing to the empty string becomes the literal
`(blank)` entry. -/
def normalizeOrBlank (part : List Char) : List Char :=
  let normalized := normalize_token part
  if normalized = [] then ['(', 'b', 'l', 'a', 'n', 'k', ')'] else normalized

/-- The tokenization of one (non-empty) line by `read_words` (wordCount.py
lines 44-52): split on the single space character, then normalize each
part, with the `(blank)` sentinel for empty results. -/
def processLine (line : List Char) : List (List Char) :=
  (splitOnChar ' ' line).map normalizeOrBlank

/-! ## Specification-side definitions

The following definitions transcribe the words of the specification (not
the code); the theorems below relate them to the code models above. -/

/-- Reading a most-significant-first string of `'0'`/`'1'` characters as a
natural number: each digit contributes its positional value. -/
def binToNat : List Char → ℕ
  | [] => 0
  | c :: t => (if c = '1' then 1 else 0) * 2 ^ t.length + binToNat t

/-- The numeric value of one uppercase hexadecimal digit (16 on any other
character). -/
def hexCharVal : Char → ℕ
  | '0' => 0 | '1' => 1 | '2' => 2 | '3' => 3 | '4' => 4 | '5' => 5
  | '6' => 6 | '7' => 7 | '8' => 8 | '9' => 9 | 'A' => 10 | 'B' => 11
  | 'C' => 12 | 'D' => 13 | 'E' => 14 | 'F' => 15 | _ => 16

/-- Reading a most-significant-first string of uppercase hex digits as a
natural number: each digit contributes its positional value. -/
def hexToNat : List Char → ℕ
  | [] => 0
  | c :: t => hexCharVal c * 16 ^ t.length + hexToNat t

/-- Maximum of a list of naturals (`0` on the empty list). -/
def natMax (l : List ℕ) : ℕ := l.foldr max 0

/-- The maximal frequency of the specification: the largest number of exact
occurrences of any value of the sequence. -/
def maxMultiplicity (values : List ℚ) : ℕ :=
  natMax (values.map (fun v => values.count v))

/-- The distinct elements of a list, each kept once, in the order of their
first occurrence. -/
def distinctFirstSeen {α : Type} [DecidableEq α] : List α → List α
  | [] => []
  | w :: ws => w :: distinctFirstSeen (ws.filter (fun x => x ≠ w))
termination_by l => l.length
decreasing_by
  simp only [List.length_cons]
  exact Nat.lt_succ_of_le (List.length_filter_le _ _)

/-- Joining parts with a single separator character between consecutive
parts (the inverse image of `splitOnChar`). -/
def joinWith (c : Char) : List (List Char) → List Char
  | [] => []
  | [p] => p
  | p :: q :: rest => p ++ c :: joinWith c (q :: rest)

/-- Proof-side measure: the total count attributed to a key by an
association list (the sum over its entries for that key). -/
def keyCount {α : Type} [DecidableEq α] (freq : List (α × ℕ)) (k : α) : ℕ :=
  (freq.map (fun p => if p.1 = k then p.2 else 0)).sum

/-- Proof-side view of one step of the mode selection loop: optional
running maximum. -/
def omax (b : Option ℚ) (v : ℚ) : Option ℚ :=
  match b with
  | none => some v
  | some x => some (max x v)

end A42

namespace A42

/-! ## The frequency dictionary

Lemmas about `updateFreq` / `count_frequencies`, shared by the statistics
`mode` and by the word-count report. -/

section Freq

variable {α : Type} [DecidableEq α]

theorem keyCount_nil (k : α) : keyCount ([] : List (α × ℕ)) k = 0 := rfl

theorem keyCount_cons (q : α × ℕ) (rest : List (α × ℕ)) (k : α) :
    keyCount (q :: rest) k = (if q.1 = k then q.2 else 0) + keyCount rest k := by
  simp [keyCount]

theorem keyCount_updateFreq (freq : List (α × ℕ)) (v k : α) :
    keyCount (updateFreq freq v) k
      = keyCount freq k + (if v = k then 1 else 0) := by
  induction freq with
  | nil =>
      simp only [updateFreq, keyCount_cons, keyCount_nil]
      split_ifs <;> omega
  | cons p rest ih =>
      obtain ⟨k', c⟩ := p
      by_cases hk : k' = v
      · subst hk
        rw [updateFreq, if_pos rfl, keyCount_cons, keyCount_cons]
        split_ifs <;> omega
      · rw [updateFreq, if_neg hk, keyCount_cons, ih, keyCount_cons]
        omega

theorem keys_updateFreq (freq : List (α × ℕ)) (v : α) :
    (updateFreq freq v).map Prod.fst
      = if v ∈ freq.map Prod.fst then freq.map Prod.fst
        else freq.map Prod.fst ++ [v] := by
  induction freq with
  | nil => simp [updateFreq]
  | cons p rest ih =>
      obtain ⟨k', c⟩ := p
      by_cases hk : k' = v
      · subst hk
        simp [updateFreq]
      · simp only [updateFreq, if_neg hk, List.map_cons, List.mem_cons, ih]
        by_cases hv : v ∈ rest.map Prod.fst
        · simp [hv, hk, Ne.symm hk]
        · simp [hv, hk, Ne.symm hk]

theorem keyCount_eq_zero_of_not_mem {freq : List (α × ℕ)} {k : α}
    (h : k ∉ freq.map Prod.fst) : keyCount freq k = 0 := by
  induction freq with
  | nil => rfl
  | cons p rest ih =>
      simp only [List.map_cons, List.mem_cons, not_or] at h
      simp only [keyCount, List.map_cons, List.sum_cons]
      rw [if_neg (fun hh => h.1 hh.symm)]
      simpa [keyCount] using ih h.2

theorem pos_counts_updateFreq :
    ∀ (freq : List (α × ℕ)) (v : α), (∀ p ∈ freq, 1 ≤ p.2) →
      ∀ p ∈ updateFreq freq v, 1 ≤ p.2
  | [], v, _, p, hp => by
      simp only [updateFreq, List.mem_singleton] at hp
      subst hp
      exact le_refl 1
  | (k', c) :: rest, v, h, p, hp => by
      by_cases hk : k' = v
      · rw [updateFreq, if_pos hk] at hp
        rcases List.mem_cons.mp hp with hq | hq
        · subst hq
          exact Nat.le_add_left 1 c
        · exact h p (List.mem_cons_of_mem _ hq)
      · rw [updateFreq, if_neg hk] at hp
        rcases List.mem_cons.mp hp with hq | hq
        · subst hq
          exact h _ (List.mem_cons_self _ _)
        · exact pos_counts_updateFreq rest v
            (fun q hq' => h q (List.mem_cons_of_mem _ hq')) p hq

theorem nodup_keys_updateFreq {freq : List (α × ℕ)} (v : α)
    (h : (freq.map Prod.fst).Nodup) :
    ((updateFreq freq v).map Prod.fst).Nodup := by
  rw [keys_updateFreq]
  by_cases hv : v ∈ freq.map Prod.fst
  · simpa [hv] using h
  · simp [hv, List.nodup_append, h]

theorem keyCount_foldl (ws : List α) :
    ∀ (acc : List (α × ℕ)) (k : α),
      keyCount (ws.foldl updateFreq acc) k = keyCount acc k + ws.count k := by
  induction ws with
  | nil => simp
  | cons w rest ih =>
      intro acc k
      simp only [List.foldl_cons, ih, keyCount_updateFreq, List.count_cons,
        beq_iff_eq]
      by_cases h : w = k
      · simp only [h, if_pos rfl]
        omega
      · simp only [if_neg h, if_neg (Ne.symm h)]
        omega

theorem pos_counts_foldl (ws : List α) :
    ∀ (acc : List (α × ℕ)), (∀ p ∈ acc, 1 ≤ p.2) →
      ∀ p ∈ ws.foldl updateFreq acc, 1 ≤ p.2 := by
  induction ws with
  | nil => intro acc h; simpa using h
  | cons w rest ih =>
      intro acc h
      exact ih _ (pos_counts_updateFreq acc w h)

theorem nodup_keys_foldl (ws : List α) :
    ∀ (acc : List (α × ℕ)), (acc.map Prod.fst).Nodup →
      ((ws.foldl updateFreq acc).map Prod.fst).Nodup := by
  induction ws with
  | nil => intro acc h; simpa using h
  | cons w rest ih =>
      intro acc h
      exact ih _ (nodup_keys_updateFreq w h)

theorem entry_keyCount {freq : List (α × ℕ)}
    (hnd : (freq.map Prod.fst).Nodup) :
    ∀ p ∈ freq, keyCount freq p.1 = p.2 := by
  induction freq with
  | nil => intro p hp; simp at hp
  | cons q rest ih =>
      intro p hp
      simp only [List.map_cons, List.nodup_cons] at hnd
      rcases List.mem_cons.mp hp with hp | hp
      · subst hp
        rw [keyCount_cons, if_pos rfl,
          keyCount_eq_zero_of_not_mem (by simpa using hnd.1), Nat.add_zero]
      · have hne : q.1 ≠ p.1 := by
          intro hq
          exact hnd.1 (hq ▸ List.mem_map_of_mem Prod.fst hp)
        rw [keyCount_cons, if_neg hne, Nat.zero_add]
        exact ih hnd.2 p hp

theorem mem_keys_of_keyCount_pos {freq : List (α × ℕ)} {k : α}
    (h : 0 < keyCount freq k) : k ∈ freq.map Prod.fst := by
  by_contra hmem
  rw [keyCount_eq_zero_of_not_mem hmem] at h
  exact Nat.lt_irrefl 0 h

theorem count_freq_entry {ws : List α} {p : α × ℕ}
    (hp : p ∈ count_frequencies ws) : p.2 = ws.count p.1 ∧ p.1 ∈ ws := by
  have hnd : ((count_frequencies ws).map Prod.fst).Nodup :=
    nodup_keys_foldl ws [] (by simp)
  have h1 : keyCount (count_frequencies ws) p.1 = p.2 :=
    entry_keyCount hnd p hp
  have h2 : keyCount (count_frequencies ws) p.1 = ws.count p.1 := by
    simpa [keyCount_nil] using keyCount_foldl ws [] p.1
  have hpos : 1 ≤ p.2 := pos_counts_foldl ws [] (by simp) p hp
  have heq : p.2 = ws.count p.1 := h1.symm.trans h2
  refine ⟨heq, ?_⟩
  have : 0 < ws.count p.1 := by omega
  exact List.count_pos_iff.mp this

theorem count_freq_mem {ws : List α} {k : α} (hk : k ∈ ws) :
    (k, ws.count k) ∈ count_frequencies ws := by
  have hcount : 0 < keyCount (count_frequencies ws) k := by
    have h2 : keyCount (count_frequencies ws) k = ws.count k := by
      simpa [keyCount_nil] using keyCount_foldl ws [] k
    rw [h2]
    exact List.count_pos_iff.mpr hk
  have hmem : k ∈ (count_frequencies ws).map Prod.fst :=
    mem_keys_of_keyCount_pos hcount
  obtain ⟨p, hp, hfst⟩ := List.mem_map.mp hmem
  have := (count_freq_entry hp).1
  have hpk : p = (k, ws.count k) := by
    obtain ⟨a, b⟩ := p
    simp only at hfst this
    subst hfst
    simp [this]
  exact hpk ▸ hp

theorem count_freq_nodup (ws : List α) :
    ((count_frequencies ws).map Prod.fst).Nodup :=
  nodup_keys_foldl ws [] (by simp)

end Freq

end A42

namespace A42

/-! ## Maxima of natural-number lists and the mode selection loop -/

theorem foldl_max_eq_natMax (l : List ℕ) :
    ∀ a : ℕ, l.foldl max a = max a (natMax l) := by
  induction l with
  | nil => intro a; simp [natMax]
  | cons x t ih =>
      intro a
      simp only [List.foldl_cons, ih, natMax, List.foldr_cons]
      rw [max_assoc]

theorem natMax_mem {l : List ℕ} (h : l ≠ []) : natMax l ∈ l := by
  induction l with
  | nil => exact absurd rfl h
  | cons x t ih =>
      by_cases ht : t = []
      · subst ht
        simp [natMax]
      · rcases max_choice x (natMax t) with hm | hm
        · simp only [natMax, List.foldr_cons] at hm ⊢
          rw [hm]
          exact List.mem_cons_self _ _
        · simp only [natMax, List.foldr_cons] at hm ⊢
          rw [hm]
          exact List.mem_cons_of_mem _ (ih ht)

theorem le_natMax {l : List ℕ} {y : ℕ} (hy : y ∈ l) : y ≤ natMax l := by
  induction l with
  | nil => simp at hy
  | cons x t ih =>
      rcases List.mem_cons.mp hy with hy | hy
      · subst hy
        exact le_max_left _ _
      · exact le_trans (ih hy) (le_max_right _ _)

theorem maxCountOf_eq_natMax (freq : List (ℚ × ℕ)) :
    maxCountOf freq = natMax (freq.map Prod.snd) := by
  cases freq with
  | nil => rfl
  | cons p rest =>
      have hfold : ∀ (t : List (ℚ × ℕ)) (a : ℕ),
          t.foldl (fun m q => max m q.2) a = max a (natMax (t.map Prod.snd)) := by
        intro t
        induction t with
        | nil => intro a; simp [natMax]
        | cons q u ih =>
            intro a
            simp only [List.foldl_cons, ih, List.map_cons, natMax,
              List.foldr_cons]
            rw [max_assoc]
      simp only [maxCountOf, hfold, List.map_cons, natMax, List.foldr_cons]

/-- Every value of a non-empty sequence attains at most the maximal
multiplicity, and some value attains it. -/
theorem maxMultiplicity_spec {values : List ℚ} (h : values ≠ []) :
    (∃ v ∈ values, values.count v = maxMultiplicity values)
      ∧ ∀ v ∈ values, values.count v ≤ maxMultiplicity values := by
  constructor
  · have hne : values.map (fun v => values.count v) ≠ [] := by
      simpa using h
    have hmem := natMax_mem hne
    rw [List.mem_map] at hmem
    obtain ⟨v, hv, hvc⟩ := hmem
    exact ⟨v, hv, hvc⟩
  · intro v hv
    exact le_natMax (List.mem_map_of_mem _ hv)

/-- The maximal dictionary count computed by `mode` is the maximal
multiplicity of the input values. -/
theorem maxCountOf_count_frequencies {values : List ℚ} (h : values ≠ []) :
    maxCountOf (count_frequencies values) = maxMultiplicity values := by
  rw [maxCountOf_eq_natMax]
  apply le_antisymm
  · by_cases hemp : (count_frequencies values).map Prod.snd = []
    · rw [hemp]
      exact Nat.zero_le _
    · have hmem := natMax_mem hemp
      rw [List.mem_map] at hmem
      obtain ⟨p, hp, hpc⟩ := hmem
      obtain ⟨hcount, hmemv⟩ := count_freq_entry hp
      rw [← hpc, hcount]
      exact (maxMultiplicity_spec h).2 _ hmemv
  · obtain ⟨v, hv, hvc⟩ := (maxMultiplicity_spec h).1
    have hentry := count_freq_mem hv
    have : values.count v ∈ (count_frequencies values).map Prod.snd :=
      List.mem_map_of_mem Prod.snd hentry
    rw [← hvc]
    exact le_natMax this

theorem modeStep_eq_omax (M : ℕ) (b : Option ℚ) (p : ℚ × ℕ) :
    modeStep M b p = if p.2 = M then omax b p.1 else b := by
  cases b with
  | none => rfl
  | some x =>
      simp only [modeStep, omax]
      rcases le_or_lt p.1 x with hle | hlt
      · rw [if_neg (not_lt.mpr hle), max_eq_left hle]
      · rw [if_pos hlt, max_eq_right (le_of_lt hlt)]

theorem foldl_modeStep_eq (M : ℕ) (freq : List (ℚ × ℕ)) :
    ∀ b : Option ℚ,
      freq.foldl (modeStep M) b
        = ((freq.filter (fun p => p.2 = M)).map Prod.fst).foldl omax b := by
  induction freq with
  | nil => intro b; rfl
  | cons q rest ih =>
      intro b
      by_cases hq : q.2 = M
      · rw [List.foldl_cons, ih, modeStep_eq_omax, if_pos hq,
          List.filter_cons_of_pos (by simpa using hq), List.map_cons,
          List.foldl_cons]
      · rw [List.foldl_cons, ih, modeStep_eq_omax, if_neg hq,
          List.filter_cons_of_neg (by simpa using hq)]

theorem foldl_omax_some (l : List ℚ) :
    ∀ x : ℚ, l.foldl omax (some x) = some (l.foldl max x) := by
  induction l with
  | nil => intro x; rfl
  | cons v t ih =>
      intro x
      rw [List.foldl_cons, List.foldl_cons]
      exact ih (max x v)

theorem foldl_qmax_spec (l : List ℚ) :
    ∀ x : ℚ, (l.foldl max x = x ∨ l.foldl max x ∈ l)
      ∧ x ≤ l.foldl max x ∧ ∀ y ∈ l, y ≤ l.foldl max x := by
  induction l with
  | nil =>
      intro x
      refine ⟨Or.inl rfl, le_refl x, ?_⟩
      intro y hy
      simp at hy
  | cons v t ih =>
      intro x
      obtain ⟨ha, hb, hc⟩ := ih (max x v)
      rw [List.foldl_cons]
      refine ⟨?_, le_trans (le_max_left x v) hb, ?_⟩
      · rcases ha with ha | ha
        · rcases max_choice x v with hm | hm
          · rw [ha, hm]
            exact Or.inl rfl
          · rw [ha, hm]
            exact Or.inr (List.mem_cons_self _ _)
        · exact Or.inr (List.mem_cons_of_mem _ ha)
      · intro y hy
        rcases List.mem_cons.mp hy with hy | hy
        · subst hy
          exact le_trans (le_max_right x y) hb
        · exact hc y hy

end A42

namespace A42

/-! ## Claim C3: the mode tie-break policy -/

/-- C3: on a non-empty sequence of samples, if the maximal frequency over
exact values is 1 then `mode` returns none (reported `#N/A`); otherwise it
returns the largest value among all values attaining the maximal frequency;
in particular `[1, 1, 2, 2]` has mode 2. -/
theorem claim3_mode (values : List ℚ) (h : values ≠ []) :
    (maxMultiplicity values = 1 → mode values = none)
    ∧ (maxMultiplicity values ≠ 1 →
        ∃ m, mode values = some m ∧ m ∈ values
          ∧ values.count m = maxMultiplicity values
          ∧ ∀ x ∈ values, values.count x = maxMultiplicity values → x ≤ m)
    ∧ mode [1, 1, 2, 2] = some 2 := by
  have hM := maxCountOf_count_frequencies h
  refine ⟨?_, ?_, ?_⟩
  · intro h1
    simp only [mode]
    rw [if_pos (hM.trans h1)]
  · intro h1
    simp only [mode]
    rw [if_neg (fun hc => h1 (hM.symm.trans hc)), hM]
    obtain ⟨v, hv, hvc⟩ := (maxMultiplicity_spec h).1
    have hvF : (v, values.count v) ∈ count_frequencies values :=
      count_freq_mem hv
    have hvfil : (v, values.count v)
        ∈ (count_frequencies values).filter
            (fun p => p.2 = maxMultiplicity values) :=
      List.mem_filter.mpr ⟨hvF, by simpa using hvc⟩
    have hvmem : v ∈ ((count_frequencies values).filter
        (fun p => p.2 = maxMultiplicity values)).map Prod.fst :=
      List.mem_map_of_mem Prod.fst hvfil
    obtain ⟨t0, ts, hts⟩ : ∃ t0 ts,
        ((count_frequencies values).filter
          (fun p => p.2 = maxMultiplicity values)).map Prod.fst = t0 :: ts := by
      cases hls : ((count_frequencies values).filter
          (fun p => p.2 = maxMultiplicity values)).map Prod.fst with
      | nil => rw [hls] at hvmem; simp at hvmem
      | cons t0 ts => exact ⟨t0, ts, rfl⟩
    have hbest : modeBest (maxMultiplicity values) (count_frequencies values)
        = some (ts.foldl max t0) := by
      rw [modeBest, foldl_modeStep_eq, hts, List.foldl_cons]
      exact foldl_omax_some ts t0
    refine ⟨ts.foldl max t0, hbest, ?_, ?_, ?_⟩
    · have hmem_tied : ts.foldl max t0 ∈ t0 :: ts := by
        rcases (foldl_qmax_spec ts t0).1 with he | he
        · rw [he]; exact List.mem_cons_self _ _
        · exact List.mem_cons_of_mem _ he
      rw [← hts, List.mem_map] at hmem_tied
      obtain ⟨p, hpf, hpfst⟩ := hmem_tied
      have hpF : p ∈ count_frequencies values := (List.mem_filter.mp hpf).1
      exact hpfst ▸ (count_freq_entry hpF).2
    · have hmem_tied : ts.foldl max t0 ∈ t0 :: ts := by
        rcases (foldl_qmax_spec ts t0).1 with he | he
        · rw [he]; exact List.mem_cons_self _ _
        · exact List.mem_cons_of_mem _ he
      rw [← hts, List.mem_map] at hmem_tied
      obtain ⟨p, hpf, hpfst⟩ := hmem_tied
      have hpF : p ∈ count_frequencies values := (List.mem_filter.mp hpf).1
      have hpM : p.2 = maxMultiplicity values := by
        simpa using (List.mem_filter.mp hpf).2
      have := (count_freq_entry hpF).1
      rw [← hpfst, ← this, hpM]
    · intro x hx hxc
      have hxF : (x, values.count x) ∈ count_frequencies values :=
        count_freq_mem hx
      have hxfil : (x, values.count x)
          ∈ (count_frequencies values).filter
              (fun p => p.2 = maxMultiplicity values) :=
        List.mem_filter.mpr ⟨hxF, by simpa using hxc⟩
      have hxmem : x ∈ t0 :: ts := by
        rw [← hts]
        exact List.mem_map_of_mem Prod.fst hxfil
      rcases List.mem_cons.mp hxmem with hx0 | hxts
      · rw [hx0]
        exact (foldl_qmax_spec ts t0).2.1
      · exact (foldl_qmax_spec ts t0).2.2 x hxts
  · norm_num [mode, count_frequencies, updateFreq, maxCountOf, modeBest,
      modeStep, List.foldl]

/-- C3 witness: the theorem instantiated at the concrete input
`[1, 1, 2, 2]`, whose maximal multiplicity is 2. -/
theorem claim3_mode_witness :
    ([1, 1, 2, 2] : List ℚ) ≠ []
    ∧ ((maxMultiplicity [1, 1, 2, 2] = 1 → mode [1, 1, 2, 2] = none)
      ∧ (maxMultiplicity [1, 1, 2, 2] ≠ 1 →
          ∃ m, mode [1, 1, 2, 2] = some m ∧ m ∈ ([1, 1, 2, 2] : List ℚ)
            ∧ ([1, 1, 2, 2] : List ℚ).count m = maxMultiplicity [1, 1, 2, 2]
            ∧ ∀ x ∈ ([1, 1, 2, 2] : List ℚ),
                ([1, 1, 2, 2] : List ℚ).count x = maxMultiplicity [1, 1, 2, 2]
                  → x ≤ m)
      ∧ mode [1, 1, 2, 2] = some 2) :=
  ⟨by simp, claim3_mode [1, 1, 2, 2] (by simp)⟩

/-! ## First-seen key order and count totals (wordCount.py) -/

section FreqOrder

variable {α : Type} [DecidableEq α]

theorem keys_foldl_firstSeen (ws : List α) :
    ∀ acc : List (α × ℕ),
      (ws.foldl updateFreq acc).map Prod.fst
        = acc.map Prod.fst
            ++ distinctFirstSeen (ws.filter (fun w => w ∉ acc.map Prod.fst)) := by
  induction ws with
  | nil => intro acc; simp [distinctFirstSeen]
  | cons w rest ih =>
      intro acc
      rw [List.foldl_cons, ih (updateFreq acc w), keys_updateFreq,
        List.filter_cons]
      by_cases hw : w ∈ acc.map Prod.fst
      · rw [if_pos hw, if_neg (by simpa using hw)]
      · rw [if_neg hw, if_pos (by simpa using hw), distinctFirstSeen,
          List.append_assoc, List.singleton_append]
        congr 2
        rw [List.filter_filter]
        refine congrArg distinctFirstSeen (List.filter_congr ?_)
        intro x _
        by_cases hxa : x ∈ acc.map Prod.fst
        · simp [hxa]
        · by_cases hxw : x = w
          · simp [hxa, hxw]
          · simp [hxa, hxw]

theorem count_freq_keys (ws : List α) :
    (count_frequencies ws).map Prod.fst = distinctFirstSeen ws := by
  rw [count_frequencies, keys_foldl_firstSeen ws [], List.map_nil,
    List.nil_append]
  congr 1
  apply List.filter_eq_self.mpr
  intro a _
  simp

theorem snd_sum_updateFreq (freq : List (α × ℕ)) (v : α) :
    ((updateFreq freq v).map Prod.snd).sum = (freq.map Prod.snd).sum + 1 := by
  induction freq with
  | nil => simp [updateFreq]
  | cons p rest ih =>
      obtain ⟨k, c⟩ := p
      by_cases hk : k = v
      · rw [updateFreq, if_pos hk]
        simp only [List.map_cons, List.sum_cons]
        omega
      · rw [updateFreq, if_neg hk]
        simp only [List.map_cons, List.sum_cons, ih]
        omega

theorem snd_sum_foldl (ws : List α) :
    ∀ acc : List (α × ℕ),
      ((ws.foldl updateFreq acc).map Prod.snd).sum
        = (acc.map Prod.snd).sum + ws.length := by
  induction ws with
  | nil => intro acc; simp
  | cons w rest ih =>
      intro acc
      rw [List.foldl_cons, ih (updateFreq acc w), snd_sum_updateFreq,
        List.length_cons]
      omega

end FreqOrder

/-! ## Claim C10: counts total to the number of tokens -/

/-- C10: for every list of words, the counts in the frequency table built by
`count_frequencies` sum to the length of the list, so the Grand Total line
(printed from `len(words)`) always equals the sum of the per-word counts of
the report body. -/
theorem claim10_grand_total (words : List String) :
    ((count_frequencies words).map Prod.snd).sum = words.length := by
  rw [count_frequencies, snd_sum_foldl words []]
  simp

/-! ## Claim C7: report rows in first-seen order with total counts -/

/-- C7: the frequency table over which `build_report` iterates lists each
distinct normalized token exactly once (keys are nodup), in first-seen
order (`distinctFirstSeen`), and each key carries its total occurrence
count in the input. -/
theorem claim7_report_rows (words : List String) :
    (count_frequencies words).map Prod.fst = distinctFirstSeen words
    ∧ ((count_frequencies words).map Prod.fst).Nodup
    ∧ ∀ p ∈ count_frequencies words, p.2 = words.count p.1 :=
  ⟨count_freq_keys words, count_freq_nodup words,
    fun p hp => (count_freq_entry hp).1⟩

/-- C7 witness: the theorem applied to a concrete word list with a repeated
token; the table is `[("a", 2), ("b", 1)]` and the entry `("a", 2)` carries
the total count of `"a"`. -/
theorem claim7_report_rows_witness :
    ("a", 2) ∈ count_frequencies ["a", "b", "a"]
    ∧ (2 : ℕ) = ["a", "b", "a"].count "a" :=
  ⟨by decide, (claim7_report_rows ["a", "b", "a"]).2.2 ("a", 2) (by decide)⟩

end A42

namespace A42

/-! ## Fixed-width two-complement rendering (convertNumbers.py) -/

/-- Splitting an integer remainder at the next power of the base. -/
theorem emod_pow_succ (u b : ℤ) (hb : 0 < b) (w : ℕ) :
    u % b ^ (w + 1) = u / b ^ w % b * b ^ w + u % b ^ w := by
  have hbw : (0:ℤ) < b ^ w := pow_pos hb w
  have h1 : u % b ^ w + b ^ w * (u / b ^ w) = u := Int.emod_add_ediv u (b ^ w)
  have h2 : u / b ^ w % b + b * (u / b ^ w / b) = u / b ^ w :=
    Int.emod_add_ediv (u / b ^ w) b
  have hr0 : 0 ≤ u % b ^ w := Int.emod_nonneg u (ne_of_gt hbw)
  have hr1 : u % b ^ w < b ^ w := Int.emod_lt_of_pos u hbw
  have hq0 : 0 ≤ u / b ^ w % b := Int.emod_nonneg _ (ne_of_gt hb)
  have hq1 : u / b ^ w % b < b := Int.emod_lt_of_pos _ hb
  have key : u = (u / b ^ w % b * b ^ w + u % b ^ w)
      + b ^ (w + 1) * (u / b ^ w / b) := by
    rw [pow_succ]
    linear_combination (-1 : ℤ) * h1 - b ^ w * h2
  calc u % b ^ (w + 1)
      = ((u / b ^ w % b * b ^ w + u % b ^ w)
          + b ^ (w + 1) * (u / b ^ w / b)) % b ^ (w + 1) := by rw [← key]
    _ = (u / b ^ w % b * b ^ w + u % b ^ w) % b ^ (w + 1) :=
        Int.add_mul_emod_self_left _ _ _
    _ = u / b ^ w % b * b ^ w + u % b ^ w := by
        apply Int.emod_eq_of_lt
        · exact add_nonneg (mul_nonneg hq0 (le_of_lt hbw)) hr0
        · have hle : u / b ^ w % b ≤ b - 1 := by omega
          have hmul : u / b ^ w % b * b ^ w ≤ (b - 1) * b ^ w :=
            mul_le_mul_of_nonneg_right hle (le_of_lt hbw)
          have hsum : (b - 1) * b ^ w + b ^ w = b ^ w * b := by ring
          rw [pow_succ]
          linarith [hmul, hr1, hsum]

/-- Interpreting the 10-bit rendering loop of `to_binary`: the bits of `u`
extracted most-significant first read back as `u` modulo `2 ^ w`. -/
theorem binToNat_render (u : ℤ) : ∀ w : ℕ,
    binToNat ((List.range w).reverse.map
      (fun i => if Int.fdiv u (2 ^ i) % 2 = 1 then '1' else '0'))
      = (u % 2 ^ w).toNat := by
  intro w
  induction w with
  | zero => simp [binToNat]
  | succ w ih =>
      rw [List.range_succ, List.reverse_append, List.reverse_singleton]
      simp only [List.singleton_append, List.map_cons]
      rw [binToNat, ih]
      simp only [List.length_map, List.length_reverse, List.length_range]
      have hfd : Int.fdiv u (2 ^ w) = u / 2 ^ w :=
        Int.fdiv_eq_ediv u (by positivity)
      have hsplit := emod_pow_succ u 2 (by norm_num) w
      have hr0 : 0 ≤ u % 2 ^ w := Int.emod_nonneg u (by positivity)
      have hcast : ((2 ^ w : ℕ) : ℤ) = 2 ^ w := by push_cast; ring
      rcases Int.emod_two_eq (u / 2 ^ w) with h2 | h2
      · rw [hfd, h2, if_neg (by norm_num : ¬(0:ℤ) = 1),
          if_neg (by decide : ¬(Eq (Char.ofNat 48) (Char.ofNat 49)))]
        rw [hsplit, h2]
        norm_num
      · rw [hfd, h2, if_pos rfl, if_pos rfl]
        rw [hsplit, h2]
        rw [← hcast]
        omega

/-- The hex digit table inverts its own reading on the nibble range. -/
theorem hexCharVal_hexDigitAt (d : ℕ) (h : d < 16) :
    hexCharVal (hexDigitAt d) = d := by
  interval_cases d <;> rfl

/-- Nibble characters are drawn from the uppercase digit table. -/
theorem hexDigitAt_mem (d : ℕ) (h : d < 16) : hexDigitAt d ∈ HEX_DIGITS := by
  interval_cases d <;> decide

/-- Interpreting the 10-digit rendering loop of `to_hex`: the nibbles of
`u` extracted most-significant first read back as `u` modulo `16 ^ w`. -/
theorem hexToNat_render (u : ℤ) : ∀ w : ℕ,
    hexToNat ((List.range w).reverse.map
      (fun j => hexDigitAt ((Int.fdiv u (2 ^ (4 * j)) % 16).toNat)))
      = (u % 16 ^ w).toNat := by
  intro w
  induction w with
  | zero => simp [hexToNat]
  | succ w ih =>
      rw [List.range_succ, List.reverse_append, List.reverse_singleton]
      simp only [List.singleton_append, List.map_cons]
      rw [hexToNat, ih]
      simp only [List.length_map, List.length_reverse, List.length_range]
      have hpw : (2:ℤ) ^ (4 * w) = 16 ^ w := by
        rw [pow_mul]
        norm_num
      have hfd : Int.fdiv u (2 ^ (4 * w)) = u / 16 ^ w := by
        rw [hpw]
        exact Int.fdiv_eq_ediv u (by positivity)
      have hsplit := emod_pow_succ u 16 (by norm_num) w
      have hq0 : 0 ≤ u / 16 ^ w % 16 := Int.emod_nonneg _ (by norm_num)
      have hq1 : u / 16 ^ w % 16 < 16 := Int.emod_lt_of_pos _ (by norm_num)
      have hr0 : 0 ≤ u % 16 ^ w := Int.emod_nonneg u (by positivity)
      rw [hfd, hsplit, hexCharVal_hexDigitAt _ (by omega)]
      have hqn : u / 16 ^ w % 16 * (16 ^ w : ℤ)
          = (((u / 16 ^ w % 16).toNat * 16 ^ w : ℕ) : ℤ) := by
        push_cast
        rw [Int.toNat_of_nonneg hq0]
      rw [hqn]
      omega

/-- The negative branch of `to_binary`: exactly ten bits reading back as
the unsigned value modulo `2 ^ 10`. -/
theorem to_binary_neg_spec (value : ℤ) (hneg : value < 0) :
    (to_binary value).length = 10
    ∧ (∀ c ∈ to_binary value, c = '0' ∨ c = '1')
    ∧ binToNat (to_binary value) = ((2 ^ 10 + value) % 2 ^ 10).toNat := by
  have hb : ¬ (0 ≤ value) := not_le.mpr hneg
  refine ⟨?_, ?_, ?_⟩
  · rw [to_binary, if_neg hb]
    simp
  · rw [to_binary, if_neg hb]
    intro c hc
    rw [List.mem_map] at hc
    obtain ⟨i, _, hi⟩ := hc
    by_cases hcond : Int.fdiv (2 ^ 10 + value) (2 ^ i) % 2 = 1
    · rw [← hi, if_pos hcond]
      exact Or.inr rfl
    · rw [← hi, if_neg hcond]
      exact Or.inl rfl
  · rw [to_binary, if_neg hb]
    exact binToNat_render (2 ^ 10 + value) 10

/-- The negative branch of `to_hex`: exactly ten uppercase hex digits
reading back as the unsigned value modulo `2 ^ 40`. -/
theorem to_hex_neg_spec (value : ℤ) (hneg : value < 0) :
    (to_hex value).length = 10
    ∧ (∀ c ∈ to_hex value, c ∈ HEX_DIGITS)
    ∧ hexToNat (to_hex value) = ((2 ^ 40 + value) % 2 ^ 40).toNat := by
  have hb : ¬ (0 ≤ value) := not_le.mpr hneg
  refine ⟨?_, ?_, ?_⟩
  · rw [to_hex, if_neg hb]
    simp
  · rw [to_hex, if_neg hb]
    intro c hc
    rw [List.mem_map] at hc
    obtain ⟨j, _, hj⟩ := hc
    rw [← hj]
    apply hexDigitAt_mem
    have h0 : 0 ≤ Int.fdiv (2 ^ 40 + value) (2 ^ (4 * j)) % 16 :=
      Int.emod_nonneg _ (by norm_num)
    have h1 : Int.fdiv (2 ^ 40 + value) (2 ^ (4 * j)) % 16 < 16 :=
      Int.emod_lt_of_pos _ (by norm_num)
    omega
  · rw [to_hex, if_neg hb, hexToNat_render (2 ^ 40 + value) 10]
    have h16 : (16:ℤ) ^ 10 = 2 ^ 40 := by norm_num
    rw [h16]

end A42

namespace A42

/-! ## Claim C2: two-complement encoding of negatives -/

/-- C2: for every negative integer, `to_binary` renders exactly the ten-bit
encoding of `unsigned = 2 ^ 10 + value` (reading the ten `0`/`1` characters
back as a number yields `unsigned` modulo `2 ^ 10`, which is `unsigned`
itself whenever it fits), and `to_hex` renders exactly the ten uppercase
hex digits of `unsigned = 2 ^ 40 + value` modulo `2 ^ 40`; in particular
`-1` encodes to `"1111111111"` and `"FFFFFFFFFF"`. -/
theorem claim2_negative_encoding (value : ℤ) (hneg : value < 0) :
    ((to_binary value).length = 10
      ∧ (∀ c ∈ to_binary value, c = '0' ∨ c = '1')
      ∧ binToNat (to_binary value) = ((2 ^ 10 + value) % 2 ^ 10).toNat)
    ∧ ((to_hex value).length = 10
      ∧ (∀ c ∈ to_hex value, c ∈ HEX_DIGITS)
      ∧ hexToNat (to_hex value) = ((2 ^ 40 + value) % 2 ^ 40).toNat)
    ∧ to_binary (-1) = ['1', '1', '1', '1', '1', '1', '1', '1', '1', '1']
    ∧ to_hex (-1) = ['F', 'F', 'F', 'F', 'F', 'F', 'F', 'F', 'F', 'F'] :=
  ⟨to_binary_neg_spec value hneg, to_hex_neg_spec value hneg,
    by decide, by decide⟩

/-- C2 witness: the theorem applied at the boundary input `-1`. -/
theorem claim2_negative_encoding_witness :
    (-1 : ℤ) < 0
    ∧ (((to_binary (-1 : ℤ)).length = 10
        ∧ (∀ c ∈ to_binary (-1 : ℤ), c = '0' ∨ c = '1')
        ∧ binToNat (to_binary (-1 : ℤ)) = ((2 ^ 10 + (-1)) % 2 ^ 10).toNat)
      ∧ ((to_hex (-1 : ℤ)).length = 10
        ∧ (∀ c ∈ to_hex (-1 : ℤ), c ∈ HEX_DIGITS)
        ∧ hexToNat (to_hex (-1 : ℤ)) = ((2 ^ 40 + (-1)) % 2 ^ 40).toNat)
      ∧ to_binary (-1) = ['1', '1', '1', '1', '1', '1', '1', '1', '1', '1']
      ∧ to_hex (-1) = ['F', 'F', 'F', 'F', 'F', 'F', 'F', 'F', 'F', 'F']) :=
  ⟨by decide, claim2_negative_encoding (-1) (by decide)⟩

/-! ## Claim C9: out-of-range negatives wrap modulo the width -/

/-- C9: for every negative integer, however large its magnitude, the
negative branches never truncate, lengthen or fail: `to_binary` always
returns exactly ten characters over `0`/`1` reading back as
`value mod 2 ^ 10`, and `to_hex` exactly ten uppercase hex digits reading
back as `value mod 2 ^ 40`; e.g. `-1500` (outside ten-bit range) wraps to
`"1000100100"` and `-549755813889` (outside forty-bit range) wraps to
`"7FFFFFFFFF"`. -/
theorem claim9_wraparound (value : ℤ) (hneg : value < 0) :
    ((to_binary value).length = 10
      ∧ (∀ c ∈ to_binary value, c = '0' ∨ c = '1')
      ∧ binToNat (to_binary value) = (value % 2 ^ 10).toNat)
    ∧ ((to_hex value).length = 10
      ∧ (∀ c ∈ to_hex value, c ∈ HEX_DIGITS)
      ∧ hexToNat (to_hex value) = (value % 2 ^ 40).toNat)
    ∧ to_binary (-1500) = ['1', '0', '0', '0', '1', '0', '0', '1', '0', '0']
    ∧ to_hex (-549755813889)
        = ['7', 'F', 'F', 'F', 'F', 'F', 'F', 'F', 'F', 'F'] := by
  obtain ⟨hbl, hbc, hbv⟩ := to_binary_neg_spec value hneg
  obtain ⟨hhl, hhc, hhv⟩ := to_hex_neg_spec value hneg
  have hwrap10 : (2 ^ 10 + value) % 2 ^ 10 = value % 2 ^ 10 := by
    have h := Int.add_mul_emod_self_left value (2 ^ 10) 1
    rw [mul_one] at h
    rw [add_comm]
    exact h
  have hwrap40 : (2 ^ 40 + value) % 2 ^ 40 = value % 2 ^ 40 := by
    have h := Int.add_mul_emod_self_left value (2 ^ 40) 1
    rw [mul_one] at h
    rw [add_comm]
    exact h
  refine ⟨⟨hbl, hbc, ?_⟩, ⟨hhl, hhc, ?_⟩, by decide, by decide⟩
  · rw [hbv, hwrap10]
  · rw [hhv, hwrap40]

/-- C9 witness: the theorem applied at `-1500`, far outside the ten-bit
two-complement range. -/
theorem claim9_wraparound_witness :
    (-1500 : ℤ) < 0
    ∧ (((to_binary (-1500 : ℤ)).length = 10
        ∧ (∀ c ∈ to_binary (-1500 : ℤ), c = '0' ∨ c = '1')
        ∧ binToNat (to_binary (-1500 : ℤ)) = ((-1500 : ℤ) % 2 ^ 10).toNat)
      ∧ ((to_hex (-1500 : ℤ)).length = 10
        ∧ (∀ c ∈ to_hex (-1500 : ℤ), c ∈ HEX_DIGITS)
        ∧ hexToNat (to_hex (-1500 : ℤ)) = ((-1500 : ℤ) % 2 ^ 40).toNat)
      ∧ to_binary (-1500) = ['1', '0', '0', '0', '1', '0', '0', '1', '0', '0']
      ∧ to_hex (-549755813889)
          = ['7', 'F', 'F', 'F', 'F', 'F', 'F', 'F', 'F', 'F']) :=
  ⟨by decide, claim9_wraparound (-1500) (by decide)⟩

end A42

namespace A42

/-! ## Claim C4: sample variance and its small-input guard -/

/-- The accumulation loop of `variance` totals the squared deviations. -/
theorem foldl_sq_sum (avg : ℚ) (values : List ℚ) :
    ∀ a : ℚ,
      values.foldl (fun total value => total + (value - avg) * (value - avg)) a
        = a + (values.map (fun v => (v - avg) ^ 2)).sum := by
  induction values with
  | nil => intro a; simp
  | cons v t ih =>
      intro a
      rw [List.foldl_cons, ih, List.map_cons, List.sum_cons]
      ring

/-- On at least two values, `variance` is the sum of squared deviations
divided by `n - 1`. -/
theorem variance_eq_sum (values : List ℚ) (avg : ℚ) (h : 2 ≤ values.length) :
    variance values avg
      = (values.map (fun v => (v - avg) ^ 2)).sum / ((values.length : ℚ) - 1) := by
  simp only [variance]
  rw [if_neg (by omega), foldl_sq_sum avg values 0, zero_add]

/-- C4: with at least two samples, `variance` returns the sum of squared
deviations from the given mean divided by `n - 1`; with fewer than two it
returns exactly `0.0`, whatever the mean argument. -/
theorem claim4_variance (values : List ℚ) (avg : ℚ) :
    (2 ≤ values.length →
      variance values avg
        = (values.map (fun v => (v - avg) ^ 2)).sum / ((values.length : ℚ) - 1))
    ∧ (values.length < 2 → variance values avg = 0) := by
  constructor
  · intro h
    exact variance_eq_sum values avg h
  · intro h
    simp only [variance]
    rw [if_pos h]

/-- C4 witness: the two branches at the concrete inputs `[1, 2, 2, 4]`
(four samples) and `[5]` (one sample, arbitrary mean argument). -/
theorem claim4_variance_witness :
    (2 ≤ ([1, 2, 2, 4] : List ℚ).length
      ∧ variance [1, 2, 2, 4] (9/4)
          = (([1, 2, 2, 4] : List ℚ).map (fun v => (v - 9/4) ^ 2)).sum
              / ((([1, 2, 2, 4] : List ℚ).length : ℚ) - 1))
    ∧ (([5] : List ℚ).length < 2 ∧ variance [5] (9/4) = 0) :=
  ⟨⟨by decide, (claim4_variance [1, 2, 2, 4] (9/4)).1 (by decide)⟩,
   ⟨by decide, (claim4_variance [5] (9/4)).2 (by decide)⟩⟩

/-! ## Claim C6: median is order-insensitive -/

/-- C6: `median` (sort ascending; odd count takes the middle element, even
count averages the two central ones) is invariant under permutation of a
non-empty input, e.g. the median of three values is the middle one and the
median of `[1, 2, 3, 4]` is `2.5`. -/
theorem claim6_median_perm (l l2 : List ℚ) (hne : l ≠ []) (hp : l.Perm l2) :
    median l = median l2
    ∧ median [1, 3, 2] = 2
    ∧ median [1, 2, 3, 4] = 5/2 := by
  refine ⟨?_, ?_, ?_⟩
  · have hanti : IsAntisymm ℚ (fun a b : ℚ => a ≤ b) :=
      ⟨fun a b h1 h2 => le_antisymm h1 h2⟩
    have hperm : (List.insertionSort (fun a b : ℚ => a ≤ b) l).Perm
        (List.insertionSort (fun a b : ℚ => a ≤ b) l2) :=
      (List.perm_insertionSort _ l).trans
        (hp.trans (List.perm_insertionSort _ l2).symm)
    have hsort : List.insertionSort (fun a b : ℚ => a ≤ b) l
        = List.insertionSort (fun a b : ℚ => a ≤ b) l2 :=
      @List.eq_of_perm_of_sorted ℚ (fun a b : ℚ => a ≤ b) hanti _ _ hperm
        (List.sorted_insertionSort _ l) (List.sorted_insertionSort _ l2)
    simp only [median, hsort]
  · norm_num [median, List.insertionSort, List.orderedInsert, List.getD]
  · norm_num [median, List.insertionSort, List.orderedInsert, List.getD]

/-- C6 witness: the theorem applied to `[3, 1, 2]` and its permutation
`[1, 2, 3]`. -/
theorem claim6_median_perm_witness :
    ([3, 1, 2] : List ℚ) ≠ []
    ∧ ([3, 1, 2] : List ℚ).Perm [1, 2, 3]
    ∧ (median [3, 1, 2] = median [1, 2, 3]
      ∧ median [1, 3, 2] = 2
      ∧ median [1, 2, 3, 4] = 5/2) :=
  ⟨by decide, by decide, claim6_median_perm [3, 1, 2] [1, 2, 3]
    (by decide) (by decide)⟩

/-! ## Claim C5: tokenization of one line -/

/-- A part without the separator is returned whole by the split. -/
theorem splitOnChar_no_sep (c : Char) :
    ∀ p : List Char, c ∉ p → splitOnChar c p = [p]
  | [], _ => rfl
  | x :: xs, h => by
      rw [splitOnChar]
      have hx : ¬ x = c := fun hh => h (hh ▸ List.mem_cons_self x xs)
      rw [if_neg hx,
        splitOnChar_no_sep c xs (fun hm => h (List.mem_cons_of_mem x hm))]
      rfl

/-- Splitting past one separator occurrence peels off the first part. -/
theorem splitOnChar_sep_append (c : Char) :
    ∀ p t : List Char, c ∉ p →
      splitOnChar c (p ++ c :: t) = p :: splitOnChar c t
  | [], t, _ => by
      rw [List.nil_append, splitOnChar, if_pos rfl]
  | x :: xs, t, h => by
      rw [List.cons_append, splitOnChar]
      have hx : ¬ x = c := fun hh => h (hh ▸ List.mem_cons_self x xs)
      rw [if_neg hx,
        splitOnChar_sep_append c xs t (fun hm => h (List.mem_cons_of_mem x hm))]
      rfl

/-- The split is a left inverse of joining with single separators: every
separator occurrence cuts, so `k` consecutive separators produce `k - 1`
empty parts in between. -/
theorem splitOnChar_joinWith (c : Char) :
    ∀ parts : List (List Char), parts ≠ [] → (∀ p ∈ parts, c ∉ p) →
      splitOnChar c (joinWith c parts) = parts
  | [], h, _ => absurd rfl h
  | [p], _, hall => by
      rw [joinWith, splitOnChar_no_sep c p (hall p (List.mem_singleton_self p))]
  | p :: q :: rest, _, hall => by
      rw [joinWith,
        splitOnChar_sep_append c p (joinWith c (q :: rest))
          (hall p (List.mem_cons_self _ _)),
        splitOnChar_joinWith c (q :: rest) (List.cons_ne_nil q rest)
          (fun r hr => hall r (List.mem_cons_of_mem p hr))]

/-- C5: a non-empty line is split on every single space character (so
consecutive spaces yield empty tokens), each part is reduced to its
lowercased alphanumeric characters, and an empty reduction becomes the
`(blank)` sentinel; in particular the line `"a  b"` with two spaces yields
the tokens `["a", "(blank)", "b"]`. -/
theorem claim5_tokenize (parts : List (List Char)) (hne : parts ≠ [])
    (hsp : ∀ p ∈ parts, ' ' ∉ p) :
    splitOnChar ' ' (joinWith ' ' parts) = parts
    ∧ processLine (joinWith ' ' parts) = parts.map normalizeOrBlank
    ∧ processLine ['a', ' ', ' ', 'b']
        = [['a'], ['(', 'b', 'l', 'a', 'n', 'k', ')'], ['b']] := by
  have hsplit := splitOnChar_joinWith ' ' parts hne hsp
  refine ⟨hsplit, ?_, by decide⟩
  rw [processLine, hsplit]

/-- C5 witness: the theorem applied to the parts `["a", "", "b"]`, whose
join is the line `"a  b"` with two consecutive spaces. -/
theorem claim5_tokenize_witness :
    ([['a'], [], ['b']] : List (List Char)) ≠ []
    ∧ (∀ p ∈ ([['a'], [], ['b']] : List (List Char)), ' ' ∉ p)
    ∧ (splitOnChar ' ' (joinWith ' ' [['a'], [], ['b']]) = [['a'], [], ['b']]
      ∧ processLine (joinWith ' ' [['a'], [], ['b']])
          = ([['a'], [], ['b']] : List (List Char)).map normalizeOrBlank
      ∧ processLine ['a', ' ', ' ', 'b']
          = [['a'], ['(', 'b', 'l', 'a', 'n', 'k', ')'], ['b']]) :=
  ⟨by decide, by decide,
    claim5_tokenize [['a'], [], ['b']] (by decide) (by decide)⟩

end A42

namespace A42

/-! ## Claim C1: what the statistics report actually prints -/

/-- C1 counterexample: on the input samples `[1, 2, 2, 4]` the value
interpolated after the label `Variance` is the variable `var` of
computeStatistics.py line 166, the sample variance `19/12 = 1.58333...`,
not the population variance `1.1875` that the specification announces. -/
theorem claim1_counterexample :
    printedVariance [1, 2, 2, 4] = 19/12
    ∧ printedVariance [1, 2, 2, 4] ≠ (1.1875 : ℚ) := by
  constructor <;> norm_num [printedVariance, variance, mean, List.foldl]

/-- C1 amended: the value printed after `Variance` is the sample variance
(sum of squared deviations from the mean over `n - 1`), while the value
printed after `Standard deviation` is the square root of the population
variance (the sample variance rescaled by `(n - 1) / n`); on the input
`[1, 2, 2, 4]` the printed variance is `19/12 = 1.58333...` and the printed
standard deviation is `sqrt (1.1875)`, which lies strictly between
`1.0897` and `1.0898`. -/
theorem claim1_amended (numbers : List ℚ) (h : numbers ≠ []) :
    printedVariance numbers
      = (numbers.map (fun v => (v - mean numbers) ^ 2)).sum
          / ((numbers.length : ℚ) - 1)
    ∧ printedStd numbers
        = Real.sqrt (((printedVariance numbers : ℚ) : ℝ)
            * ((numbers.length : ℝ) - 1) / (numbers.length : ℝ))
    ∧ printedVariance [1, 2, 2, 4] = 19/12
    ∧ printedStd [1, 2, 2, 4] = Real.sqrt ((19/16 : ℝ))
    ∧ (1.0897 : ℝ) < Real.sqrt ((19/16 : ℝ))
    ∧ Real.sqrt ((19/16 : ℝ)) < (1.0898 : ℝ) := by
  refine ⟨?_, ?_, ?_, ?_, ?_, ?_⟩
  · by_cases h2 : 2 ≤ numbers.length
    · exact variance_eq_sum numbers (mean numbers) h2
    · have h1 : numbers.length = 1 := by
        have h0 : numbers.length ≠ 0 := fun hh => h (List.length_eq_zero.mp hh)
        omega
      obtain ⟨v, rfl⟩ := List.length_eq_one.mp h1
      have hm : mean [v] = v := by
        simp [mean]
      rw [printedVariance, hm]
      simp [variance]
  · rw [printedStd]
    have hcast : ((var_population numbers : ℚ) : ℝ)
        = ((printedVariance numbers : ℚ) : ℝ)
            * ((numbers.length : ℝ) - 1) / (numbers.length : ℝ) := by
      rw [var_population]
      push_cast
      ring
    rw [hcast]
  · norm_num [printedVariance, variance, mean, List.foldl]
  · have h1 : var_population [1, 2, 2, 4] = 19/16 := by
      norm_num [var_population, printedVariance, variance, mean, List.foldl]
    rw [printedStd, h1]
    norm_num
  · rw [show (1.0897 : ℝ) = 10897 / 10000 by norm_num]
    rw [Real.lt_sqrt (by norm_num)]
    norm_num
  · rw [show (1.0898 : ℝ) = 10898 / 10000 by norm_num]
    rw [Real.sqrt_lt' (by norm_num)]
    norm_num

/-- C1 witness: the amended statement instantiated at the concrete input
`[1, 2, 2, 4]` of the end-to-end scenario. -/
theorem claim1_amended_witness :
    ([1, 2, 2, 4] : List ℚ) ≠ []
    ∧ (printedVariance [1, 2, 2, 4]
        = (([1, 2, 2, 4] : List ℚ).map
            (fun v => (v - mean [1, 2, 2, 4]) ^ 2)).sum
              / ((([1, 2, 2, 4] : List ℚ).length : ℚ) - 1)
      ∧ printedStd [1, 2, 2, 4]
          = Real.sqrt (((printedVariance [1, 2, 2, 4] : ℚ) : ℝ)
              * ((([1, 2, 2, 4] : List ℚ).length : ℝ) - 1)
                  / (([1, 2, 2, 4] : List ℚ).length : ℝ))
      ∧ printedVariance [1, 2, 2, 4] = 19/12
      ∧ printedStd [1, 2, 2, 4] = Real.sqrt ((19/16 : ℝ))
      ∧ (1.0897 : ℝ) < Real.sqrt ((19/16 : ℝ))
      ∧ Real.sqrt ((19/16 : ℝ)) < (1.0898 : ℝ)) :=
  ⟨by simp, claim1_amended [1, 2, 2, 4] (by simp)⟩

/-! ## Claim C8: fatal conditions abort before any report -/

/-- C8: for both `main` entry points, a wrong argument count, a missing
input file, or zero valid parsed entries each end the run in
`RunOutcome.fatal 1` — a non-zero `sys.exit` raised before the report is
built, so `save_results` is never reached and no output file is written
(only the `RunOutcome.saved` branch models reaching it). -/
theorem claim8_fatal (parseNum : String → Option ℚ)
    (parseIntF : String → Option ℤ) (argv : List String)
    (file : Option (List String)) :
    (argv.length ≠ 2 →
      statsMain parseNum argv file = RunOutcome.fatal 1
      ∧ convertMain parseIntF argv file = RunOutcome.fatal 1)
    ∧ (file = none →
      statsMain parseNum argv file = RunOutcome.fatal 1
      ∧ convertMain parseIntF argv file = RunOutcome.fatal 1)
    ∧ (∀ lines, file = some lines →
        (read_numbers parseNum lines).1.length = 0 →
        statsMain parseNum argv file = RunOutcome.fatal 1)
    ∧ (∀ lines, file = some lines →
        (read_items parseIntF lines).1.all (fun p => p.2.isNone) = true →
        convertMain parseIntF argv file = RunOutcome.fatal 1) := by
  refine ⟨?_, ?_, ?_, ?_⟩
  · intro h
    constructor
    · rw [statsMain.eq_def, if_pos h]
    · rw [convertMain.eq_def, if_pos h]
  · intro hf
    subst hf
    by_cases ha : argv.length ≠ 2
    · exact ⟨by rw [statsMain, if_pos ha], by rw [convertMain, if_pos ha]⟩
    · exact ⟨by rw [statsMain, if_neg ha], by rw [convertMain, if_neg ha]⟩
  · intro lines hf hz
    subst hf
    by_cases ha : argv.length ≠ 2
    · rw [statsMain, if_pos ha]
    · rw [statsMain, if_neg ha]
      simp [hz]
  · intro lines hf hz
    subst hf
    by_cases ha : argv.length ≠ 2
    · rw [convertMain, if_pos ha]
    · rw [convertMain, if_neg ha]
      simp [hz]

end A42

namespace A42

/-- C8 witness: a run invoked with no file argument (argument vector of
length one) is fatal for both utilities, whatever the parsers do. -/
theorem claim8_fatal_witness :
    (["computeStatistics.py"] : List String).length ≠ 2
    ∧ statsMain (fun _ => none) ["computeStatistics.py"] none
        = RunOutcome.fatal 1
    ∧ convertMain (fun _ => none) ["computeStatistics.py"] none
        = RunOutcome.fatal 1 :=
  ⟨by decide,
   ((claim8_fatal (fun _ => none) (fun _ => none)
      ["computeStatistics.py"] none).1 (by decide)).1,
   ((claim8_fatal (fun _ => none) (fun _ => none)
      ["computeStatistics.py"] none).1 (by decide)).2⟩

end A42
